import Mathlib

/-!
A verification development for the payload transport layer of Stegano-Studio
(`stegano_core.py`): the EOF append container codec, the LSB steganographic
codec with password-keyed index permutation, the capacity calculator and the
password-based encryption envelope.

Modelling conventions:
* Byte strings (`bytes`) are `List Nat`, each element a byte value; machine
  bytes are `< 256` and theorems carry that bound where the source relies on
  `uint8` arithmetic.
* A decoded raster image is `Img`: width, height and the flattened RGB
  channel bytes (`np.array(img.convert("RGB")).flatten()`).  PNG encoding and
  re-decoding is lossless and is modelled as the identity on the decoded
  pixel buffer.
* Fallible operations return `Except Err α`; the constructors of `Err` follow
  the specification's error taxonomy and each models the concrete
  `ValueError` raised at the corresponding place in the source.
* External library primitives (SHA-256 seed derivation, the seeded PRNG's
  `randbelow` stream, PBKDF2 and AES-GCM, PIL image decoding) are not code of
  this repository; they are abstracted as explicit parameters, and theorems
  state what holds for every (or for suitably well-behaved) instantiation.
-/

/-- Error taxonomy of the transport layer (spec §7), with the Python
`ValueError` messages each constructor models. -/
inductive Err where
  /-- "Payload too large for image capacity." / "Image too small or corrupted
  (can't read header)." -/
  | insufficientCapacity
  /-- "Marker not found or truncated." / "Marker not found in LSB data." -/
  | markerNotFound
  /-- "Invalid embedded length (corrupted container)." / "Declared payload
  length exceeds image capacity or is corrupted." -/
  | corruptLength
  /-- "Payload not encrypted or invalid header." -/
  | invalidFormat
  /-- `InvalidTag` from AES-GCM: wrong password or tampered data. -/
  | authenticationFailure
  deriving DecidableEq, Repr

/-- Decidable equality for `Except`, so that concrete runs of the fallible
operations can be checked by `decide`. -/
instance {ε α : Type} [DecidableEq ε] [DecidableEq α] : DecidableEq (Except ε α) := fun x y =>
  match x, y with
  | .ok a, .ok b =>
    if h : a = b then isTrue (by rw [h]) else
      isFalse (by intro hc; injection hc; contradiction)
  | .error a, .error b =>
    if h : a = b then isTrue (by rw [h]) else
      isFalse (by intro hc; injection hc; contradiction)
  | .ok _, .error _ => isFalse (by intro hc; cases hc)
  | .error _, .ok _ => isFalse (by intro hc; cases hc)

/-- `MARKER = b"STEG0"` as byte values. -/
def MARKER : List Nat := [83, 84, 69, 71, 48]

/-- `LENGTH_LEN = 8`. -/
def LENGTH_LEN : Nat := 8

/-- Big-endian encoding: `n.to_bytes(len, "big")`.  Python raises
`OverflowError` when `n ≥ 256^len`; we model only the in-range behaviour
(the digits of `n` padded to `len`), and theorems about round trips carry
the in-range bound. -/
def beEncode (n : Nat) : Nat → List Nat
  | 0 => []
  | k + 1 => (n / 256 ^ k) % 256 :: beEncode (n % 256 ^ k) k

/-- Big-endian decoding: `int.from_bytes(l, "big")`. -/
def beDecode (l : List Nat) : Nat :=
  l.foldl (fun a b => a * 256 + b) 0

theorem beEncode_length (n k : Nat) : (beEncode n k).length = k := by
  induction k generalizing n with
  | zero => rfl
  | succ k ih => simp [beEncode, ih]

theorem beEncode_lt (n k : Nat) : ∀ b ∈ beEncode n k, b < 256 := by
  induction k generalizing n with
  | zero => simp [beEncode]
  | succ k ih =>
    intro b hb
    simp only [beEncode, List.mem_cons] at hb
    rcases hb with h | h
    · omega
    · exact ih _ _ h

theorem beDecode_foldl (l : List Nat) :
    ∀ a : Nat, List.foldl (fun a b => a * 256 + b) a l = a * 256 ^ l.length + beDecode l := by
  induction l with
  | nil => intro a; simp [beDecode]
  | cons x xs ih =>
    intro a
    simp only [List.foldl_cons, List.length_cons, beDecode]
    rw [ih (a * 256 + x), ih (0 * 256 + x)]
    ring

theorem beDecode_append (l₁ l₂ : List Nat) :
    beDecode (l₁ ++ l₂) = beDecode l₁ * 256 ^ l₂.length + beDecode l₂ := by
  have h : beDecode (l₁ ++ l₂) = List.foldl (fun a b => a * 256 + b) (beDecode l₁) l₂ := by
    simp [beDecode, List.foldl_append]
  rw [h, beDecode_foldl]

theorem beDecode_beEncode (n k : Nat) (h : n < 256 ^ k) :
    beDecode (beEncode n k) = n := by
  induction k generalizing n with
  | zero =>
    simp [beEncode, beDecode]
    omega
  | succ k ih =>
    have hlt : n % 256 ^ k < 256 ^ k := Nat.mod_lt _ (Nat.pos_pow_of_pos k (by norm_num))
    have : beDecode (beEncode n (k + 1)) =
        beDecode ([(n / 256 ^ k) % 256] ++ beEncode (n % 256 ^ k) k) := rfl
    rw [this, beDecode_append, ih _ hlt, beEncode_length]
    have hdiv : n / 256 ^ k < 256 := by
      rw [Nat.div_lt_iff_lt_mul (Nat.pos_pow_of_pos k (by norm_num))]
      calc n < 256 ^ (k + 1) := h
        _ = 256 * 256 ^ k := by ring
        _ ≤ 256 * 256 ^ k := le_refl _
    have : (n / 256 ^ k) % 256 = n / 256 ^ k := Nat.mod_eq_of_lt hdiv
    rw [show beDecode [(n / 256 ^ k) % 256] = (n / 256 ^ k) % 256 by simp [beDecode], this]
    conv_rhs => rw [← Nat.div_add_mod n (256 ^ k)]
    ring

/-! ## EOF container codec (`pack_stego` / `unpack_stego`) -/

/-- `pack_stego`: `carrier_bytes + MARKER + len(payload).to_bytes(8,"big") + payload`. -/
def pack_stego (carrier_bytes payload : List Nat) : List Nat :=
  carrier_bytes ++ MARKER ++ beEncode payload.length LENGTH_LEN ++ payload

/-- Whether the 5-byte marker occurs in `l` at offset `i`. -/
def markerAt (l : List Nat) (i : Nat) : Bool :=
  (l.drop i).take MARKER.length == MARKER

/-- Rightmost-match search from offset `n` downwards, the behaviour of
`bytes.rfind(MARKER)` (which returns the largest matching offset, `-1` when
none, here `none`). -/
def rfindFrom (l : List Nat) : Nat → Option Nat
  | 0 => if markerAt l 0 then some 0 else none
  | i + 1 => if markerAt l (i + 1) then some (i + 1) else rfindFrom l i

/-- `full.rfind(MARKER)` as an `Option`. -/
def rfindMarker (l : List Nat) : Option Nat :=
  rfindFrom l l.length

/-- `unpack_stego`: locate the rightmost marker, parse the 8-byte big-endian
length, bounds-check, slice. -/
def unpack_stego (full : List Nat) : Except Err (List Nat) :=
  match rfindMarker full with
  | none => Except.error Err.markerNotFound
  | some idx =>
    if idx + MARKER.length + LENGTH_LEN > full.length then
      Except.error Err.markerNotFound
    else if idx + MARKER.length + LENGTH_LEN +
        beDecode ((full.drop (idx + MARKER.length)).take LENGTH_LEN) > full.length then
      Except.error Err.corruptLength
    else
      Except.ok ((full.drop (idx + MARKER.length + LENGTH_LEN)).take
        (beDecode ((full.drop (idx + MARKER.length)).take LENGTH_LEN)))

theorem rfindFrom_eq_some (l : List Nat) (n i : Nat) :
    rfindFrom l n = some i ↔
      i ≤ n ∧ markerAt l i = true ∧ ∀ j, j ≤ n → markerAt l j = true → j ≤ i := by
  induction n with
  | zero =>
    cases hm : markerAt l 0 with
    | false =>
      simp only [rfindFrom, hm, Bool.false_eq_true, if_false]
      constructor
      · intro h; cases h
      · rintro ⟨hi, hmark, -⟩
        interval_cases i
        rw [hm] at hmark; cases hmark
    | true =>
      simp only [rfindFrom, hm, if_true]
      constructor
      · intro h
        injection h with h
        subst h
        exact ⟨le_refl _, hm, fun j hj _ => hj⟩
      · rintro ⟨hi, -, -⟩
        interval_cases i
        rfl
  | succ n ih =>
    cases hm : markerAt l (n + 1) with
    | true =>
      simp only [rfindFrom, hm, if_true]
      constructor
      · intro h
        injection h with h
        subst h
        exact ⟨le_refl _, hm, fun j hj _ => hj⟩
      · rintro ⟨hi, hmark, hmax⟩
        have h1 := hmax (n + 1) (le_refl _) hm
        have : i = n + 1 := le_antisymm hi h1
        subst this; rfl
    | false =>
      simp only [rfindFrom, hm, Bool.false_eq_true, if_false, ih]
      constructor
      · rintro ⟨hi, hmark, hmax⟩
        refine ⟨by omega, hmark, fun j hj hjm => ?_⟩
        rcases Nat.lt_or_ge j (n + 1) with hlt | hge
        · exact hmax j (by omega) hjm
        · exfalso
          have : j = n + 1 := by omega
          subst this
          rw [hm] at hjm; cases hjm
      · rintro ⟨hi, hmark, hmax⟩
        have hi' : i ≤ n := by
          rcases Nat.lt_or_ge i (n + 1) with hlt | hge
          · omega
          · exfalso
            have : i = n + 1 := by omega
            subst this
            rw [hm] at hmark; cases hmark
        exact ⟨hi', hmark, fun j hj hjm => hmax j (by omega) hjm⟩

theorem rfindFrom_eq_none (l : List Nat) (n : Nat) :
    rfindFrom l n = none ↔ ∀ j, j ≤ n → markerAt l j = false := by
  induction n with
  | zero =>
    cases hm : markerAt l 0 with
    | false =>
      simp only [rfindFrom, hm, Bool.false_eq_true, if_false, true_iff]
      intro j hj
      interval_cases j
      exact hm
    | true =>
      simp only [rfindFrom, hm, if_true]
      constructor
      · intro h; cases h
      · intro hall
        have := hall 0 (Nat.zero_le _)
        rw [hm] at this; cases this
  | succ n ih =>
    cases hm : markerAt l (n + 1) with
    | true =>
      simp only [rfindFrom, hm, if_true]
      constructor
      · intro h; cases h
      · intro hall
        have := hall (n + 1) (le_refl _)
        rw [hm] at this; cases this
    | false =>
      simp only [rfindFrom, hm, Bool.false_eq_true, if_false, ih]
      constructor
      · intro hall j hj
        rcases Nat.lt_or_ge j (n + 1) with hlt | hge
        · exact hall j (by omega)
        · have : j = n + 1 := by omega
          subst this
          exact hm
      · intro hall j hj
        exact hall j (by omega)

/-- Offsets past the point where a full marker fits never match. -/
theorem markerAt_false_of_ge (l : List Nat) (i : Nat)
    (h : l.length < i + MARKER.length) : markerAt l i = false := by
  have h5 : MARKER.length = 5 := rfl
  simp only [markerAt, beq_eq_false_iff_ne, ne_eq]
  intro hcontra
  have hlen := congrArg List.length hcontra
  simp only [List.length_take, List.length_drop, h5] at hlen
  omega

theorem pack_stego_length (C P : List Nat) :
    (pack_stego C P).length = C.length + 13 + P.length := by
  simp [pack_stego, beEncode_length, MARKER, LENGTH_LEN]
  omega

theorem pack_stego_assoc (C P : List Nat) :
    pack_stego C P = C ++ (MARKER ++ (beEncode P.length LENGTH_LEN ++ P)) := by
  simp [pack_stego, List.append_assoc]

/-- The frame appended by `pack_stego` puts a marker match at offset
`len(carrier)`. -/
theorem markerAt_pack_self (C P : List Nat) :
    markerAt (pack_stego C P) C.length = true := by
  rw [markerAt, pack_stego_assoc, List.drop_left, List.take_left]
  simp

/-- Core conditional EOF round trip: when the rightmost marker of the packed
container is the one `pack_stego` appended, `unpack_stego` recovers the
payload exactly. -/
theorem unpack_pack_of_rfind (C P : List Nat) (hP : P.length < 256 ^ LENGTH_LEN)
    (hfind : rfindMarker (pack_stego C P) = some C.length) :
    unpack_stego (pack_stego C P) = Except.ok P := by
  have hm5 : MARKER.length = 5 := rfl
  have hlen := pack_stego_length C P
  have hdrop : (pack_stego C P).drop (C.length + MARKER.length) =
      beEncode P.length LENGTH_LEN ++ P := by
    have h : pack_stego C P = (C ++ MARKER) ++ (beEncode P.length LENGTH_LEN ++ P) := by
      simp [pack_stego, List.append_assoc]
    rw [h, List.drop_left']
    simp
  have htake : ((pack_stego C P).drop (C.length + MARKER.length)).take LENGTH_LEN =
      beEncode P.length LENGTH_LEN := by
    rw [hdrop, List.take_left' (beEncode_length _ _)]
  have hln : beDecode (((pack_stego C P).drop (C.length + MARKER.length)).take LENGTH_LEN) =
      P.length := by
    rw [htake, beDecode_beEncode _ _ hP]
  have hdrop2 : (pack_stego C P).drop (C.length + MARKER.length + LENGTH_LEN) = P := by
    have h : pack_stego C P = ((C ++ MARKER) ++ beEncode P.length LENGTH_LEN) ++ P := by
      simp [pack_stego, List.append_assoc]
    rw [h, List.drop_left']
    simp [beEncode_length, LENGTH_LEN]
    omega
  have h8 : LENGTH_LEN = 8 := rfl
  simp only [unpack_stego, hfind]
  rw [if_neg (by omega), hln, if_neg (by omega), hdrop2, List.take_length]


/-- No offset strictly inside or after the appended marker matches, provided
the marker occurs nowhere in the length-field-plus-payload tail.  (`STEG0`
has no nontrivial border, so a match cannot start inside the appended
marker either.) -/
theorem markerAt_pack_of_gt (C P : List Nat) (j : Nat) (hj : C.length < j)
    (hsub : ∀ q, q ≤ (beEncode P.length LENGTH_LEN ++ P).length →
      markerAt (beEncode P.length LENGTH_LEN ++ P) q = false) :
    markerAt (pack_stego C P) j = false := by
  have hm5 : MARKER.length = 5 := rfl
  have h8 : LENGTH_LEN = 8 := rfl
  rcases Nat.lt_or_ge j (C.length + MARKER.length) with hlt | hge
  · -- the candidate match would start inside the appended marker
    cases hmk : markerAt (pack_stego C P) j with
    | false => rfl
    | true =>
      exfalso
      have heq : ((pack_stego C P).drop j).take MARKER.length = MARKER := by
        have := hmk
        rw [markerAt, beq_iff_eq] at this
        exact this
      have hdrop : (pack_stego C P).drop j =
          MARKER.drop (j - C.length) ++ (beEncode P.length LENGTH_LEN ++ P) := by
        rw [pack_stego_assoc, show j = C.length + (j - C.length) by omega, List.drop_append,
          List.drop_append_of_le_length (by omega)]
        simp [Nat.add_sub_cancel_left]
      rw [hdrop] at heq
      have hk : j - C.length = 1 ∨ j - C.length = 2 ∨ j - C.length = 3 ∨ j - C.length = 4 := by
        omega
      rcases hk with h | h | h | h <;>
        (rw [h, List.take_append_eq_append_take] at heq; simp [MARKER] at heq)
  · -- the candidate match lies entirely in the length-field-plus-payload tail
    have hdrop : (pack_stego C P).drop j =
        (beEncode P.length LENGTH_LEN ++ P).drop (j - (C.length + MARKER.length)) := by
      have h : pack_stego C P = (C ++ MARKER) ++ (beEncode P.length LENGTH_LEN ++ P) := by
        simp [pack_stego, List.append_assoc]
      rw [h, show j = (C ++ MARKER).length + (j - (C.length + MARKER.length)) by
        simp; omega, List.drop_append]
      simp [List.length_append, Nat.add_sub_cancel_left]
    rcases Nat.lt_or_ge ((beEncode P.length LENGTH_LEN ++ P).length)
        (j - (C.length + MARKER.length) + MARKER.length) with hbig | hsmall
    · rw [markerAt, hdrop]
      exact markerAt_false_of_ge _ _ hbig
    · rw [markerAt, hdrop]
      exact hsub _ (by omega)

/-- When the marker occurs nowhere in the length-field-plus-payload tail, the
rightmost marker of the packed container is the appended one. -/
theorem rfind_pack_eq (C P : List Nat)
    (hsub : ∀ q, q ≤ (beEncode P.length LENGTH_LEN ++ P).length →
      markerAt (beEncode P.length LENGTH_LEN ++ P) q = false) :
    rfindMarker (pack_stego C P) = some C.length := by
  rw [rfindMarker, rfindFrom_eq_some]
  refine ⟨?_, markerAt_pack_self C P, ?_⟩
  · rw [pack_stego_length]; omega
  · intro k hk hmk
    by_contra h
    push_neg at h
    rw [markerAt_pack_of_gt C P k h hsub] at hmk
    cases hmk

/-- C2 (counterexample): the unconditional EOF round trip fails when the
payload itself contains a marker-plus-length tail: for `C = b""` and
`P = MARKER + (0).to_bytes(8)`, `unpack_stego(pack_stego(C, P))` returns
`b""`, not `P`, because the rightmost marker match falls inside `P`. -/
theorem eof_roundtrip_cex :
    unpack_stego (pack_stego [] [83, 84, 69, 71, 48, 0, 0, 0, 0, 0, 0, 0, 0]) ≠
      Except.ok [83, 84, 69, 71, 48, 0, 0, 0, 0, 0, 0, 0, 0] ∧
    unpack_stego (pack_stego [] [83, 84, 69, 71, 48, 0, 0, 0, 0, 0, 0, 0, 0]) =
      Except.ok [] := by constructor <;> decide

/-- C2 (amended): for all byte buffers `C` and `P` (with `len(P)` within the
8-byte length field's range) such that the rightmost occurrence of the marker
in `pack_stego(C, P)` is the appended one at offset `len(C)`,
`unpack_stego(pack_stego(C, P)) = P`. -/
theorem eof_roundtrip_amended (C P : List Nat) (hP : P.length < 256 ^ LENGTH_LEN)
    (hfind : rfindMarker (pack_stego C P) = some C.length) :
    unpack_stego (pack_stego C P) = Except.ok P :=
  unpack_pack_of_rfind C P hP hfind

theorem eof_roundtrip_amended_witness :
    (([9, 9] : List Nat).length < 256 ^ LENGTH_LEN ∧
      rfindMarker (pack_stego [1, 2, 3] [9, 9]) = some 3) ∧
    unpack_stego (pack_stego [1, 2, 3] [9, 9]) = Except.ok [9, 9] :=
  ⟨⟨by decide, by decide⟩,
    eof_roundtrip_amended [1, 2, 3] [9, 9] (by decide) (by decide)⟩

/-- C10: conditional EOF round trip.  If the rightmost occurrence of the
5-byte marker in `pack_stego C P` is at offset `len(C)` then unpacking
returns `P`; and in particular, whenever the marker occurs nowhere inside
the 8-byte length field and payload bytes, the rightmost occurrence is
indeed at offset `len(C)`. -/
theorem eof_conditional_roundtrip (C P : List Nat)
    (hP : P.length < 256 ^ LENGTH_LEN) :
    (rfindMarker (pack_stego C P) = some C.length →
      unpack_stego (pack_stego C P) = Except.ok P) ∧
    ((∀ q, q ≤ (beEncode P.length LENGTH_LEN ++ P).length →
        markerAt (beEncode P.length LENGTH_LEN ++ P) q = false) →
      rfindMarker (pack_stego C P) = some C.length) :=
  ⟨fun hfind => unpack_pack_of_rfind C P hP hfind,
   fun hsub => rfind_pack_eq C P hsub⟩

theorem eof_conditional_roundtrip_witness :
    (([104, 105] : List Nat).length < 256 ^ LENGTH_LEN ∧
      (∀ q, q ≤ (beEncode ([104, 105] : List Nat).length LENGTH_LEN ++ [104, 105]).length →
        markerAt (beEncode ([104, 105] : List Nat).length LENGTH_LEN ++ [104, 105]) q = false)) ∧
    rfindMarker (pack_stego [1, 2] [104, 105]) = some 2 ∧
    unpack_stego (pack_stego [1, 2] [104, 105]) = Except.ok [104, 105] := by
  have h := eof_conditional_roundtrip [1, 2] [104, 105] (by decide)
  have hsub : ∀ q, q ≤ (beEncode ([104, 105] : List Nat).length LENGTH_LEN ++ [104, 105]).length →
      markerAt (beEncode ([104, 105] : List Nat).length LENGTH_LEN ++ [104, 105]) q = false := by
    decide
  have hfind := h.2 hsub
  exact ⟨⟨by decide, hsub⟩, hfind, h.1 hfind⟩


/-- C7: full characterisation of `unpack_stego`.  It searches for the
rightmost marker occurrence; it fails with `MarkerNotFound` when there is no
occurrence or fewer than 8 bytes follow the marker; otherwise with `L` the
8-byte big-endian length after the marker it fails with `CorruptLength`
exactly when `length_field_offset + 8 + L` exceeds the container length, and
otherwise returns exactly the `L` bytes following the length field. -/
theorem unpack_stego_characterisation (full : List Nat) :
    (rfindMarker full = none →
      (∀ j, markerAt full j = false) ∧
      unpack_stego full = Except.error Err.markerNotFound) ∧
    (∀ idx, rfindMarker full = some idx →
      (markerAt full idx = true ∧ ∀ j, markerAt full j = true → j ≤ idx) ∧
      (idx + MARKER.length + LENGTH_LEN > full.length →
        unpack_stego full = Except.error Err.markerNotFound) ∧
      (idx + MARKER.length + LENGTH_LEN ≤ full.length →
        (unpack_stego full = Except.error Err.corruptLength ↔
          idx + MARKER.length + LENGTH_LEN +
            beDecode ((full.drop (idx + MARKER.length)).take LENGTH_LEN) > full.length) ∧
        (idx + MARKER.length + LENGTH_LEN +
            beDecode ((full.drop (idx + MARKER.length)).take LENGTH_LEN) ≤ full.length →
          unpack_stego full = Except.ok ((full.drop (idx + MARKER.length + LENGTH_LEN)).take
            (beDecode ((full.drop (idx + MARKER.length)).take LENGTH_LEN))) ∧
          ((full.drop (idx + MARKER.length + LENGTH_LEN)).take
            (beDecode ((full.drop (idx + MARKER.length)).take LENGTH_LEN))).length =
            beDecode ((full.drop (idx + MARKER.length)).take LENGTH_LEN)))) := by
  constructor
  · intro hnone
    constructor
    · intro j
      rcases le_or_lt j full.length with hj | hj
      · exact (rfindFrom_eq_none full full.length).1 hnone j hj
      · exact markerAt_false_of_ge full j (by have : MARKER.length = 5 := rfl; omega)
    · simp [unpack_stego, hnone]
  · intro idx hidx
    have hspec := (rfindFrom_eq_some full full.length idx).1 hidx
    refine ⟨⟨hspec.2.1, ?_⟩, ?_, ?_⟩
    · intro j hj
      rcases le_or_lt j full.length with hjle | hjgt
      · exact hspec.2.2 j hjle hj
      · exfalso
        rw [markerAt_false_of_ge full j
          (by have : MARKER.length = 5 := rfl; omega)] at hj
        cases hj
    · intro hgt
      simp only [unpack_stego, hidx]
      rw [if_pos hgt]
    · intro hle
      constructor
      · by_cases hc : idx + MARKER.length + LENGTH_LEN +
            beDecode ((full.drop (idx + MARKER.length)).take LENGTH_LEN) > full.length
        · simp only [unpack_stego, hidx]
          rw [if_neg (by omega), if_pos hc]
          simp [hc]
        · simp only [unpack_stego, hidx]
          rw [if_neg (by omega), if_neg hc]
          constructor
          · intro h; cases h
          · intro h; exact absurd h hc
      · intro hok
        simp only [unpack_stego, hidx]
        rw [if_neg (by omega), if_neg (by omega)]
        refine ⟨rfl, ?_⟩
        simp only [List.length_take, List.length_drop]
        omega

theorem unpack_stego_characterisation_witness :
    rfindMarker [83, 84, 69, 71, 48, 0, 0, 0, 0, 0, 0, 0, 1, 7] = some 0 ∧
    unpack_stego [83, 84, 69, 71, 48, 0, 0, 0, 0, 0, 0, 0, 1, 7] = Except.ok [7] := by
  have h := (unpack_stego_characterisation
    [83, 84, 69, 71, 48, 0, 0, 0, 0, 0, 0, 0, 1, 7]).2 0 (by decide)
  have h2 := ((h.2.2 (by decide)).2 (by decide)).1
  exact ⟨by decide, h2.trans (by decide)⟩


/-! ## LSB steganographic codec -/

/-- A decoded raster image: width, height and the flattened RGB channel
bytes (`np.array(img.convert("RGB")).flatten()`, row-major, 3 channel bytes
per pixel, so a well-formed decode has `data.length = w * h * 3`).  PNG
re-encoding and decoding is lossless and is modelled as the identity on
this structure. -/
structure Img where
  w : Nat
  h : Nat
  data : List Nat
  deriving DecidableEq, Repr

/-- The MSB-first bits of one byte, `f"{byte:08b}"` (bytes are `uint8`
values `< 256`). -/
def byteBits (b : Nat) : List Nat :=
  [b / 128 % 2, b / 64 % 2, b / 32 % 2, b / 16 % 2, b / 8 % 2, b / 4 % 2, b / 2 % 2, b % 2]

/-- `_to_bitstring`: the concatenated MSB-first bits of all bytes; a
bitstring is modelled as a list of 0/1 values. -/
def _to_bitstring : List Nat → List Nat
  | [] => []
  | b :: rest => byteBits b ++ _to_bitstring rest

/-- `_from_bitstring`: reassemble bytes from an MSB-first bit list
(`int(bits[i:i+8], 2)`).  The source raises when the length is not a
multiple of 8; every call site passes a multiple of 8, and the model
consumes exactly the complete 8-bit chunks. -/
def _from_bitstring : List Nat → List Nat
  | b0 :: b1 :: b2 :: b3 :: b4 :: b5 :: b6 :: b7 :: rest =>
    (b0 * 128 + b1 * 64 + b2 * 32 + b3 * 16 + b4 * 8 + b5 * 4 + b6 * 2 + b7) ::
      _from_bitstring rest
  | _ => []

/-- External-library primitives used by the LSB codec, abstracted as
parameters: `sha8 pwd` models
`int.from_bytes(hashlib.sha256(password.encode()).digest()[:8], "big")` and
`randbelow seed k bound` models the `k`-th draw of
`random.Random(seed)._randbelow(bound)` made by `rng.shuffle` (the real
generator always returns a value `< bound`; the model clamps by `% bound`,
which is the identity on in-range values). -/
structure PyEnv where
  sha8 : String → Nat
  randbelow : Nat → Nat → Nat → Nat

/-- `_seed_from_password`: `None` for the empty password, otherwise the
64-bit seed derived from the first 8 bytes (big-endian) of
SHA-256(password). -/
def _seed_from_password (env : PyEnv) (password : String) : Option Nat :=
  if password = "" then none else some (env.sha8 password)

/-- One Python swap `x[i], x[j] = x[j], x[i]`. -/
def listSwap (l : List Nat) (i j : Nat) : List Nat :=
  (l.set i (l.getD j 0)).set j (l.getD i 0)

/-- The Fisher–Yates loop of `random.Random.shuffle`: for `i` from
`len(x)-1` down to `1`, swap position `i` with position `randbelow(i+1)`;
`c` counts the draws already consumed from the PRNG stream. -/
def shuffleGo (rb : Nat → Nat → Nat) (c : Nat) (l : List Nat) : Nat → List Nat
  | 0 => l
  | i + 1 => shuffleGo rb (c + 1) (listSwap l (i + 1) (rb c (i + 2) % (i + 2))) i

/-- `rng.shuffle(l)` for `rng = random.Random(seed)`, with `rb` the
seed-keyed draw stream. -/
def pyShuffle (rb : Nat → Nat → Nat) (l : List Nat) : List Nat :=
  match l.length with
  | 0 => l
  | n + 1 => shuffleGo rb 0 l n

/-- The index ordering computed inside `embed_lsb`:
`indices = list(range(flat.size))`, shuffled by the password-seeded PRNG
when a password is supplied. -/
def embedIndices (env : PyEnv) (N : Nat) (password : String) : List Nat :=
  match _seed_from_password env password with
  | none => List.range N
  | some seed => pyShuffle (env.randbelow seed) (List.range N)

/-- The index ordering computed inside `extract_lsb`, textually the same
block as in `embed_lsb`. -/
def extractIndices (env : PyEnv) (N : Nat) (password : String) : List Nat :=
  match _seed_from_password env password with
  | none => List.range N
  | some seed => pyShuffle (env.randbelow seed) (List.range N)

/-- The LSB write loop of `embed_lsb`:
`flat[idx] = (flat[idx] & 0xFE) | int(bit)` for `i, bit in enumerate(bits)`
with `idx = indices[i]`. -/
def writeBits (flat indices bits : List Nat) : List Nat :=
  (bits.zip indices).foldl
    (fun acc p => acc.set p.2 (Nat.lor (Nat.land (acc.getD p.2 0) 0xFE) p.1)) flat

/-- The LSB read loop of `extract_lsb`: bit `i` is `data[indices[i]] & 1`. -/
def readBits (data indices : List Nat) (n : Nat) : List Nat :=
  (List.range n).map (fun i => Nat.land (data.getD (indices.getD i 0) 0) 1)

/-- `embed_lsb`: decode (the given `Img` is the decoded carrier), capacity
check, index ordering, LSB writes, lossless PNG re-encode (identity on the
pixel buffer, same shape). -/
def embed_lsb (env : PyEnv) (carrier : Img) (payload : List Nat)
    (password : String) : Except Err Img :=
  if (_to_bitstring payload).length > carrier.data.length then
    Except.error Err.insufficientCapacity
  else
    Except.ok { carrier with
      data := writeBits carrier.data
        (embedIndices env carrier.data.length password) (_to_bitstring payload) }

/-- The 13 header bytes reassembled from the first `(5+8)*8` LSBs in index
order, as read by step 1 of `extract_lsb`. -/
def lsbHeader (data indices : List Nat) : List Nat :=
  _from_bitstring (readBits data indices ((MARKER.length + LENGTH_LEN) * 8))

/-- `extract_lsb`: recompute the index ordering, read the 13-byte header,
validate the marker, parse the 8-byte big-endian length, bounds-check, then
read and return the whole frame (marker + length + payload). -/
def extract_lsb (env : PyEnv) (stego : Img) (password : String) :
    Except Err (List Nat) :=
  if (MARKER.length + LENGTH_LEN) * 8 > (extractIndices env stego.data.length password).length then
    Except.error Err.insufficientCapacity
  else if (lsbHeader stego.data (extractIndices env stego.data.length password)).take
      MARKER.length = MARKER then
    if (MARKER.length + LENGTH_LEN +
        beDecode (((lsbHeader stego.data (extractIndices env stego.data.length password)).drop
          MARKER.length).take LENGTH_LEN)) * 8 >
        (extractIndices env stego.data.length password).length then
      Except.error Err.corruptLength
    else
      Except.ok (_from_bitstring (readBits stego.data
        (extractIndices env stego.data.length password)
        ((MARKER.length + LENGTH_LEN +
          beDecode (((lsbHeader stego.data (extractIndices env stego.data.length password)).drop
            MARKER.length).take LENGTH_LEN)) * 8)))
  else
    Except.error Err.markerNotFound

/-- `lsb_capacity_bytes`: decode (abstracted as `decode`), then
`(W*H*3) // 8`; `0` when the buffer is not a decodable image.  A pure
function of its arguments. -/
def lsb_capacity_bytes (decode : List Nat → Option Img) (carrier_bytes : List Nat) : Nat :=
  match decode carrier_bytes with
  | none => 0
  | some img => img.w * img.h * 3 / 8


theorem listSwap_length (l : List Nat) (i j : Nat) :
    (listSwap l i j).length = l.length := by
  simp [listSwap]

/-- Moving the `j`-th element to the front and filling its slot is a
permutation. -/
theorem perm_cons_set (xs : List Nat) (j x : Nat) (hj : j < xs.length) :
    (xs.getD j 0 :: xs.set j x).Perm (x :: xs) := by
  induction xs generalizing j with
  | nil => simp at hj
  | cons y t ih =>
    cases j with
    | zero =>
      simp only [List.getD_cons_zero, List.set_cons_zero]
      exact List.Perm.swap x y t
    | succ j =>
      simp only [List.getD_cons_succ, List.set_cons_succ]
      have h1 : (t.getD j 0 :: y :: t.set j x).Perm (y :: t.getD j 0 :: t.set j x) :=
        List.Perm.swap y (t.getD j 0) (t.set j x)
      have h2 : (y :: t.getD j 0 :: t.set j x).Perm (y :: x :: t) :=
        (ih j (by simpa using hj)).cons y
      have h3 : (y :: x :: t).Perm (x :: y :: t) := List.Perm.swap x y t
      exact (h1.trans h2).trans h3

theorem listSwap_perm (l : List Nat) (i j : Nat) (hi : i < l.length) (hj : j < l.length) :
    (listSwap l i j).Perm l := by
  induction l generalizing i j with
  | nil => simp at hi
  | cons y t ih =>
    cases i with
    | zero =>
      cases j with
      | zero =>
        simp [listSwap]
      | succ j =>
        simp only [listSwap, List.getD_cons_succ, List.getD_cons_zero,
          List.set_cons_zero, List.set_cons_succ]
        exact perm_cons_set t j y (by simpa using hj)
    | succ i =>
      cases j with
      | zero =>
        simp only [listSwap, List.getD_cons_succ, List.getD_cons_zero,
          List.set_cons_succ, List.set_cons_zero]
        exact perm_cons_set t i y (by simpa using hi)
      | succ j =>
        simp only [listSwap, List.getD_cons_succ, List.set_cons_succ]
        exact ((ih i j (by simpa using hi) (by simpa using hj))).cons y

theorem shuffleGo_perm (rb : Nat → Nat → Nat) :
    ∀ (i c : Nat) (l : List Nat), i < l.length → (shuffleGo rb c l i).Perm l := by
  intro i
  induction i with
  | zero =>
    intro c l h
    exact List.Perm.refl l
  | succ i ih =>
    intro c l h
    have hjlt : rb c (i + 2) % (i + 2) < i + 2 := Nat.mod_lt _ (by omega)
    have hswap : (listSwap l (i + 1) (rb c (i + 2) % (i + 2))).Perm l :=
      listSwap_perm l _ _ h (by omega)
    have hlen : (listSwap l (i + 1) (rb c (i + 2) % (i + 2))).length = l.length :=
      listSwap_length l _ _
    exact (ih (c + 1) _ (by omega)).trans hswap

theorem pyShuffle_perm (rb : Nat → Nat → Nat) (l : List Nat) :
    (pyShuffle rb l).Perm l := by
  unfold pyShuffle
  cases hl : l.length with
  | zero => exact List.Perm.refl l
  | succ n => exact shuffleGo_perm rb n 0 l (by omega)

theorem embedIndices_perm (env : PyEnv) (N : Nat) (pwd : String) :
    (embedIndices env N pwd).Perm (List.range N) := by
  unfold embedIndices
  cases _seed_from_password env pwd with
  | none => exact List.Perm.refl _
  | some seed => exact pyShuffle_perm _ _

theorem embedIndices_length (env : PyEnv) (N : Nat) (pwd : String) :
    (embedIndices env N pwd).length = N := by
  rw [(embedIndices_perm env N pwd).length_eq, List.length_range]

theorem embedIndices_nodup (env : PyEnv) (N : Nat) (pwd : String) :
    (embedIndices env N pwd).Nodup :=
  ((embedIndices_perm env N pwd).nodup_iff).2 (List.nodup_range N)

theorem embedIndices_mem_lt (env : PyEnv) (N : Nat) (pwd : String) :
    ∀ x ∈ embedIndices env N pwd, x < N := fun _ hx =>
  List.mem_range.1 (((embedIndices_perm env N pwd).mem_iff).1 hx)

theorem extractIndices_eq_embedIndices (env : PyEnv) (N : Nat) (pwd : String) :
    extractIndices env N pwd = embedIndices env N pwd := rfl


set_option maxRecDepth 2000 in
/-- The `uint8` LSB write `(v & 0xFE) | bit` in arithmetic form. -/
theorem lsb_write_eq : ∀ v < 256, ∀ b < 2, Nat.lor (Nat.land v 0xFE) b = v - v % 2 + b := by
  decide

theorem land_one_eq (x : Nat) : Nat.land x 1 = x % 2 :=
  Nat.and_one_is_mod x

theorem writeBits_nil_idx (flat bits : List Nat) : writeBits flat [] bits = flat := by
  cases bits <;> rfl

theorem writeBits_cons (flat is bs : List Nat) (i b : Nat) :
    writeBits flat (i :: is) (b :: bs) =
      writeBits (flat.set i (Nat.lor (Nat.land (flat.getD i 0) 0xFE) b)) is bs := rfl

theorem writeBits_length (bits : List Nat) :
    ∀ (idxs flat : List Nat), (writeBits flat idxs bits).length = flat.length := by
  induction bits with
  | nil => intro idxs flat; rfl
  | cons b bs ih =>
    intro idxs flat
    cases idxs with
    | nil => rw [writeBits_nil_idx]
    | cons i is => rw [writeBits_cons, ih, List.length_set]

/-- Positions outside the first `len(bits)` indices are untouched. -/
theorem writeBits_getD_of_not_mem (bits : List Nat) :
    ∀ (idxs flat : List Nat) (p : Nat), p ∉ idxs.take bits.length →
      (writeBits flat idxs bits).getD p 0 = flat.getD p 0 := by
  induction bits with
  | nil => intro idxs flat p _; rfl
  | cons b bs ih =>
    intro idxs flat p hp
    cases idxs with
    | nil => rw [writeBits_nil_idx]
    | cons i is =>
      simp only [List.length_cons, List.take_succ_cons, List.mem_cons, not_or] at hp
      rw [writeBits_cons, ih is _ p hp.2]
      simp [List.getD_eq_getElem?_getD, List.getElem?_set_ne (Ne.symm hp.1)]

/-- The value stored at the `k`-th written index is the source byte with its
LSB replaced by the `k`-th bit. -/
theorem writeBits_getD_written (bits : List Nat) :
    ∀ (idxs flat : List Nat), idxs.Nodup → (∀ x ∈ idxs, x < flat.length) →
      ∀ k, k < bits.length → k < idxs.length →
        (writeBits flat idxs bits).getD (idxs.getD k 0) 0 =
          Nat.lor (Nat.land (flat.getD (idxs.getD k 0) 0) 0xFE) (bits.getD k 0) := by
  induction bits with
  | nil =>
    intro idxs flat _ _ k hk
    simp at hk
  | cons b bs ih =>
    intro idxs flat hnodup hbound k hk hki
    cases idxs with
    | nil => simp at hki
    | cons i is =>
      cases k with
      | zero =>
        simp only [List.getD_cons_zero]
        have hi_not : i ∉ is.take bs.length := by
          intro hmem
          exact (List.nodup_cons.1 hnodup).1 (List.mem_of_mem_take hmem)
        have hilt : i < flat.length := hbound i (List.mem_cons_self i is)
        rw [writeBits_cons, writeBits_getD_of_not_mem bs is _ i hi_not,
          List.getD_eq_getElem?_getD, List.getElem?_set_self hilt, Option.getD_some]
      | succ k =>
        simp only [List.getD_cons_succ]
        have hkis : k < is.length := by simpa using hki
        have hne : i ≠ is.getD k 0 := by
          have hmem : is.getD k 0 ∈ is := by
            rw [List.getD_eq_getElem _ _ hkis]
            exact List.getElem_mem hkis
          intro h
          exact (List.nodup_cons.1 hnodup).1 (h ▸ hmem)
        rw [writeBits_cons, ih is _ (List.nodup_cons.1 hnodup).2
          (fun x hx => by rw [List.length_set]; exact hbound x (List.mem_cons_of_mem _ hx))
          k (by simpa using hk) hkis]
        have hval : (flat.set i (Nat.lor (Nat.land (flat.getD i 0) 0xFE) b)).getD
            (is.getD k 0) 0 = flat.getD (is.getD k 0) 0 := by
          rw [List.getD_eq_getElem?_getD, List.getElem?_set_ne hne,
            ← List.getD_eq_getElem?_getD]
        rw [hval]

/-- The write loop keeps all channel bytes `< 256`. -/
theorem writeBits_lt (bits : List Nat) :
    ∀ (idxs flat : List Nat), (∀ x ∈ flat, x < 256) → (∀ b ∈ bits, b < 2) →
      ∀ y ∈ writeBits flat idxs bits, y < 256 := by
  induction bits with
  | nil => intro idxs flat hflat _; exact hflat
  | cons b bs ih =>
    intro idxs flat hflat hbits
    cases idxs with
    | nil => rw [writeBits_nil_idx]; exact hflat
    | cons i is =>
      rw [writeBits_cons]
      have hv : flat.getD i 0 < 256 := by
        rcases Nat.lt_or_ge i flat.length with h | h
        · rw [List.getD_eq_getElem _ _ h]
          exact hflat _ (List.getElem_mem h)
        · rw [List.getD_eq_default _ _ h]
          omega
      have hb : b < 2 := hbits b (List.mem_cons_self b bs)
      have hset : ∀ x ∈ flat.set i (Nat.lor (Nat.land (flat.getD i 0) 0xFE) b), x < 256 := by
        intro x hx
        rcases List.mem_or_eq_of_mem_set hx with h | h
        · exact hflat x h
        · rw [h, lsb_write_eq _ hv _ hb]; omega
      exact ih is _ hset (fun x hx => hbits x (List.mem_cons_of_mem _ hx))

/-- Reading back `n ≤ len(bits)` bits after the write loop returns exactly
the first `n` written bits. -/
theorem readBits_writeBits (flat idxs bits : List Nat) (n : Nat)
    (hnodup : idxs.Nodup) (hbound : ∀ x ∈ idxs, x < flat.length)
    (hdata : ∀ x ∈ flat, x < 256) (hbits : ∀ b ∈ bits, b < 2)
    (hn : n ≤ bits.length) (hlb : bits.length ≤ idxs.length) :
    readBits (writeBits flat idxs bits) idxs n = bits.take n := by
  apply List.ext_getElem
  · simp [readBits, List.length_take]
    omega
  · intro i h1 h2
    have hi_n : i < n := by simpa [readBits] using h1
    have hi_bits : i < bits.length := by omega
    simp only [readBits, List.getElem_map, List.getElem_range, List.getElem_take]
    rw [← List.getD_eq_getElem bits 0 hi_bits]
    rw [writeBits_getD_written bits idxs flat hnodup hbound i hi_bits (by omega)]
    have hv : flat.getD (idxs.getD i 0) 0 < 256 := by
      rcases Nat.lt_or_ge (idxs.getD i 0) flat.length with h | h
      · rw [List.getD_eq_getElem _ _ h]
        exact hdata _ (List.getElem_mem h)
      · rw [List.getD_eq_default _ _ h]
        omega
    have hb : bits.getD i 0 < 2 := by
      rw [List.getD_eq_getElem _ _ hi_bits]
      exact hbits _ (List.getElem_mem hi_bits)
    rw [lsb_write_eq _ hv _ hb, land_one_eq]
    omega


theorem _to_bitstring_length (l : List Nat) : (_to_bitstring l).length = 8 * l.length := by
  induction l with
  | nil => rfl
  | cons b rest ih =>
    simp only [_to_bitstring, List.length_append, ih, byteBits, List.length_cons]
    simp
    omega

theorem _to_bitstring_lt (l : List Nat) : ∀ b ∈ _to_bitstring l, b < 2 := by
  induction l with
  | nil => simp [_to_bitstring]
  | cons x rest ih =>
    intro b hb
    simp only [_to_bitstring, List.mem_append] at hb
    rcases hb with h | h
    · simp only [byteBits, List.mem_cons] at h
      rcases h with h | h | h | h | h | h | h | h | h <;> first | (subst h; omega) | simp at h
    · exact ih b h

theorem _to_bitstring_append (l₁ l₂ : List Nat) :
    _to_bitstring (l₁ ++ l₂) = _to_bitstring l₁ ++ _to_bitstring l₂ := by
  induction l₁ with
  | nil => rfl
  | cons b rest ih =>
    show byteBits b ++ _to_bitstring (rest ++ l₂) =
      (byteBits b ++ _to_bitstring rest) ++ _to_bitstring l₂
    rw [ih, List.append_assoc]

/-- Bit `i` of the MSB-first bitstring is bit `7 - i % 8` of byte `i / 8`. -/
theorem _to_bitstring_getD (F : List Nat) :
    ∀ i, i < 8 * F.length →
      (_to_bitstring F).getD i 0 = F.getD (i / 8) 0 / 2 ^ (7 - i % 8) % 2 := by
  induction F with
  | nil =>
    intro i hi
    simp at hi
  | cons b rest ih =>
    intro i hi
    by_cases h8 : i < 8
    · have hlen : i < (byteBits b).length := by simp [byteBits]; omega
      rw [show _to_bitstring (b :: rest) = byteBits b ++ _to_bitstring rest from rfl,
        List.getD_eq_getElem?_getD, List.getElem?_append_left hlen,
        ← List.getD_eq_getElem?_getD]
      have hq : i / 8 = 0 := by omega
      have hr : i % 8 = i := by omega
      rw [hq, hr, List.getD_cons_zero]
      interval_cases i <;> simp [byteBits]
    · have h1 : i = (i - 8) + 8 := by omega
      have hlen8 : (byteBits b).length = 8 := by simp [byteBits]
      rw [show _to_bitstring (b :: rest) = byteBits b ++ _to_bitstring rest from rfl,
        List.getD_eq_getElem?_getD, h1, ← hlen8, List.getElem?_append_right (by omega),
        hlen8, Nat.add_sub_cancel, ← List.getD_eq_getElem?_getD,
        ih (i - 8) (by simp at hi ⊢; omega)]
      have hdiv : ((i - 8) + 8) / 8 = (i - 8) / 8 + 1 := Nat.add_div_right _ (by norm_num)
      have hmod : ((i - 8) + 8) % 8 = (i - 8) % 8 := Nat.add_mod_right _ _
      rw [hdiv, hmod, List.getD_cons_succ]

/-- `_from_bitstring` inverts `_to_bitstring` on genuine byte lists. -/
theorem _from_to_bitstring (F : List Nat) (hF : ∀ b ∈ F, b < 256) :
    _from_bitstring (_to_bitstring F) = F := by
  induction F with
  | nil => rfl
  | cons b rest ih =>
    have hb : b < 256 := hF b (List.mem_cons_self b rest)
    have hrest : ∀ x ∈ rest, x < 256 := fun x hx => hF x (List.mem_cons_of_mem _ hx)
    show _from_bitstring (byteBits b ++ _to_bitstring rest) = b :: rest
    have hstep : _from_bitstring (byteBits b ++ _to_bitstring rest) =
        (b / 128 % 2 * 128 + b / 64 % 2 * 64 + b / 32 % 2 * 32 + b / 16 % 2 * 16 +
          b / 8 % 2 * 8 + b / 4 % 2 * 4 + b / 2 % 2 * 2 + b % 2) ::
          _from_bitstring (_to_bitstring rest) := rfl
    rw [hstep, ih hrest]
    congr 1
    omega

/-- Truncating the bitstring at a byte boundary is the bitstring of the
byte-level prefix. -/
theorem _to_bitstring_take (F : List Nat) (k : Nat) (hk : k ≤ F.length) :
    (_to_bitstring F).take (8 * k) = _to_bitstring (F.take k) := by
  conv_lhs => rw [← List.take_append_drop k F]
  rw [_to_bitstring_append, List.take_append_of_le_length
    (by rw [_to_bitstring_length, List.length_take]; omega),
    List.take_of_length_le (by rw [_to_bitstring_length, List.length_take]; omega)]


/-- Core LSB inverse property: extracting (with the same password) from a
pixel buffer produced by the embed write loop over a well-formed frame
returns that frame exactly. -/
theorem extract_after_embed (env : PyEnv) (w hh : Nat) (flat envl : List Nat)
    (L : Nat) (pwd : String)
    (hbytes : ∀ b ∈ flat, b < 256) (hL : L = envl.length)
    (hL64 : L < 256 ^ LENGTH_LEN) (henv : ∀ b ∈ envl, b < 256)
    (hcap : 8 * (MARKER ++ beEncode L LENGTH_LEN ++ envl).length ≤ flat.length) :
    extract_lsb env
      ⟨w, hh, writeBits flat (embedIndices env flat.length pwd)
        (_to_bitstring (MARKER ++ beEncode L LENGTH_LEN ++ envl))⟩ pwd =
      Except.ok (MARKER ++ beEncode L LENGTH_LEN ++ envl) := by
  have hm5 : MARKER.length = 5 := rfl
  have h8 : LENGTH_LEN = 8 := rfl
  have hM : ∀ b ∈ MARKER, b < 256 := by decide
  have hFlen : (MARKER ++ beEncode L LENGTH_LEN ++ envl).length = 13 + L := by
    simp [List.length_append, beEncode_length, hm5, h8]
    omega
  have hFlt : ∀ b ∈ MARKER ++ beEncode L LENGTH_LEN ++ envl, b < 256 := by
    intro b hb
    simp only [List.mem_append, or_assoc] at hb
    rcases hb with hb | hb | hb
    · exact hM b hb
    · exact beEncode_lt L LENGTH_LEN b hb
    · exact henv b hb
  have hbits_len : (_to_bitstring (MARKER ++ beEncode L LENGTH_LEN ++ envl)).length =
      8 * (13 + L) := by rw [_to_bitstring_length, hFlen]
  have hbits_lt := _to_bitstring_lt (MARKER ++ beEncode L LENGTH_LEN ++ envl)
  have hnodup := embedIndices_nodup env flat.length pwd
  have hbound := embedIndices_mem_lt env flat.length pwd
  have hidxlen := embedIndices_length env flat.length pwd
  have hkey : extractIndices env (writeBits flat (embedIndices env flat.length pwd)
      (_to_bitstring (MARKER ++ beEncode L LENGTH_LEN ++ envl))).length pwd =
      embedIndices env flat.length pwd := by
    rw [writeBits_length, extractIndices_eq_embedIndices]
  have hread : ∀ n, n ≤ 8 * (13 + L) →
      readBits (writeBits flat (embedIndices env flat.length pwd)
        (_to_bitstring (MARKER ++ beEncode L LENGTH_LEN ++ envl)))
        (embedIndices env flat.length pwd) n =
      (_to_bitstring (MARKER ++ beEncode L LENGTH_LEN ++ envl)).take n := by
    intro n hn
    exact readBits_writeBits flat _ _ n hnodup hbound hbytes hbits_lt
      (by omega) (by rw [hbits_len, hidxlen]; omega)
  have hheader : lsbHeader (writeBits flat (embedIndices env flat.length pwd)
      (_to_bitstring (MARKER ++ beEncode L LENGTH_LEN ++ envl)))
      (embedIndices env flat.length pwd) = MARKER ++ beEncode L LENGTH_LEN := by
    rw [lsbHeader]
    rw [show (MARKER.length + LENGTH_LEN) * 8 = 104 from rfl, hread 104 (by omega),
      show (104 : Nat) = 8 * 13 from rfl, _to_bitstring_take _ 13 (by omega)]
    have htake13 : (MARKER ++ beEncode L LENGTH_LEN ++ envl).take 13 =
        MARKER ++ beEncode L LENGTH_LEN := by
      rw [List.take_left' (by simp [beEncode_length, hm5, h8])]
    rw [htake13, _from_to_bitstring]
    intro b hb
    rcases List.mem_append.1 hb with hb | hb
    · exact hM b hb
    · exact beEncode_lt L LENGTH_LEN b hb
  have hln : beDecode (((MARKER ++ beEncode L LENGTH_LEN).drop MARKER.length).take
      LENGTH_LEN) = L := by
    rw [List.drop_left, List.take_of_length_le (by rw [beEncode_length]),
      beDecode_beEncode _ _ hL64]
  simp only [extract_lsb, hkey, hheader, hln, hidxlen]
  rw [if_neg (by rw [hFlen] at hcap; omega)]
  rw [if_pos (List.take_left MARKER (beEncode L LENGTH_LEN))]
  rw [if_neg (by rw [hFlen] at hcap; omega)]
  rw [show (MARKER.length + LENGTH_LEN + L) * 8 = 8 * (13 + L) by omega]
  rw [hread (8 * (13 + L)) (le_refl _),
    List.take_of_length_le (by rw [hbits_len]),
    _from_to_bitstring _ hFlt]


/-- A concrete instantiation of the abstracted stdlib primitives, used by
witnesses (the properties proved do not depend on the draws). -/
def pyEnvTriv : PyEnv := ⟨fun _ => 0, fun _ _ _ => 0⟩

/-- C1: LSB round trip.  For every carrier image decoding to `W×H` RGB pixel
data whose capacity `W*H*3` bits is at least `len(F)*8`, and every password
(including the empty one), extracting after embedding returns the frame `F`
exactly, where `F = MARKER + be64(L) + envelope` with `L = len(envelope)`. -/
theorem lsb_roundtrip (env : PyEnv) (I : Img) (envl : List Nat) (L : Nat) (pwd : String)
    (hlen : I.data.length = I.w * I.h * 3)
    (hbytes : ∀ b ∈ I.data, b < 256)
    (hL : L = envl.length) (hL64 : L < 256 ^ LENGTH_LEN)
    (henv : ∀ b ∈ envl, b < 256)
    (hcap : (MARKER ++ beEncode L LENGTH_LEN ++ envl).length * 8 ≤ I.w * I.h * 3) :
    ∃ stego : Img,
      embed_lsb env I (MARKER ++ beEncode L LENGTH_LEN ++ envl) pwd = Except.ok stego ∧
      extract_lsb env stego pwd = Except.ok (MARKER ++ beEncode L LENGTH_LEN ++ envl) := by
  have hcap' : 8 * (MARKER ++ beEncode L LENGTH_LEN ++ envl).length ≤ I.data.length := by
    rw [hlen]; omega
  refine ⟨⟨I.w, I.h, writeBits I.data (embedIndices env I.data.length pwd)
    (_to_bitstring (MARKER ++ beEncode L LENGTH_LEN ++ envl))⟩, ?_, ?_⟩
  · simp only [embed_lsb]
    rw [if_neg (by rw [_to_bitstring_length]; omega)]
  · exact extract_after_embed env I.w I.h I.data envl L pwd hbytes hL hL64 henv hcap'

theorem lsb_roundtrip_witness :
    ((⟨5, 7, List.replicate 105 0⟩ : Img).data.length = 5 * 7 * 3 ∧
      (0 : Nat) < 256 ^ LENGTH_LEN ∧
      (MARKER ++ beEncode 0 LENGTH_LEN ++ ([] : List Nat)).length * 8 ≤ 5 * 7 * 3) ∧
    ∃ stego : Img,
      embed_lsb pyEnvTriv ⟨5, 7, List.replicate 105 0⟩
        (MARKER ++ beEncode 0 LENGTH_LEN ++ []) "x" = Except.ok stego ∧
      extract_lsb pyEnvTriv stego "x" =
        Except.ok (MARKER ++ beEncode 0 LENGTH_LEN ++ []) :=
  ⟨⟨by decide, by decide, by decide⟩,
    lsb_roundtrip pyEnvTriv ⟨5, 7, List.replicate 105 0⟩ [] 0 "x" (by decide) (by decide)
      rfl (by decide) (by decide) (by decide)⟩

/-- C4: the index ordering is a pure function of `(N, password)`: identical
in `embed_lsb` and `extract_lsb`, the identity `[0, N)` without a password,
and with a password the Fisher–Yates shuffle of the entire range `[0, N)`
driven by the PRNG stream keyed by the SHA-256-derived 64-bit seed — in
particular a permutation of `[0, N)`. -/
theorem lsb_index_ordering (env : PyEnv) (N : Nat) (pwd : String) :
    embedIndices env N pwd = extractIndices env N pwd ∧
    (pwd = "" → embedIndices env N pwd = List.range N) ∧
    (pwd ≠ "" →
      embedIndices env N pwd = pyShuffle (env.randbelow (env.sha8 pwd)) (List.range N) ∧
      (embedIndices env N pwd).Perm (List.range N)) := by
  refine ⟨rfl, ?_, ?_⟩
  · intro h
    simp [embedIndices, _seed_from_password, h]
  · intro h
    refine ⟨?_, embedIndices_perm env N pwd⟩
    simp [embedIndices, _seed_from_password, h]

theorem lsb_index_ordering_witness :
    embedIndices pyEnvTriv 5 "" = List.range 5 ∧
    ("x" : String) ≠ "" ∧
    (embedIndices pyEnvTriv 5 "x").Perm (List.range 5) :=
  ⟨(lsb_index_ordering pyEnvTriv 5 "").2.1 rfl, by decide,
    ((lsb_index_ordering pyEnvTriv 5 "x").2.2 (by decide)).2⟩

/-- C6: `embed_lsb` fails with `InsufficientCapacity` iff `len(F)*8 > N`
with `N = W*H*3`; the check precedes any pixel write (on failure no image is
produced at all), and a frame occupying exactly the full capacity embeds
successfully with the carrier's shape preserved. -/
theorem embed_capacity_boundary (env : PyEnv) (I : Img) (payload : List Nat) (pwd : String)
    (hlen : I.data.length = I.w * I.h * 3) :
    (embed_lsb env I payload pwd = Except.error Err.insufficientCapacity ↔
      payload.length * 8 > I.w * I.h * 3) ∧
    (payload.length * 8 ≤ I.w * I.h * 3 →
      ∃ stego : Img, embed_lsb env I payload pwd = Except.ok stego ∧
        stego.w = I.w ∧ stego.h = I.h ∧ stego.data.length = I.data.length) := by
  have hb : (_to_bitstring payload).length = 8 * payload.length := _to_bitstring_length payload
  constructor
  · constructor
    · intro h
      by_contra hc
      push_neg at hc
      simp only [embed_lsb] at h
      rw [if_neg (by omega)] at h
      cases h
    · intro h
      simp only [embed_lsb]
      rw [if_pos (by omega)]
  · intro h
    refine ⟨⟨I.w, I.h, writeBits I.data (embedIndices env I.data.length pwd)
      (_to_bitstring payload)⟩, ?_, rfl, rfl, ?_⟩
    · simp only [embed_lsb]
      rw [if_neg (by omega)]
    · exact writeBits_length _ _ _

theorem embed_capacity_boundary_witness :
    ((⟨2, 2, List.replicate 12 0⟩ : Img).data.length = 2 * 2 * 3 ∧
      ([170] : List Nat).length * 8 ≤ 2 * 2 * 3) ∧
    (embed_lsb pyEnvTriv ⟨2, 2, List.replicate 12 0⟩ [170] "" =
        Except.error Err.insufficientCapacity ↔ ([170] : List Nat).length * 8 > 2 * 2 * 3) ∧
    (∃ stego : Img, embed_lsb pyEnvTriv ⟨2, 2, List.replicate 12 0⟩ [170] "" =
        Except.ok stego ∧ stego.w = 2 ∧ stego.h = 2 ∧
        stego.data.length = (⟨2, 2, List.replicate 12 0⟩ : Img).data.length) := by
  have h := embed_capacity_boundary pyEnvTriv ⟨2, 2, List.replicate 12 0⟩ [170] "" (by decide)
  exact ⟨⟨by decide, by decide⟩, h.1, h.2 (by decide)⟩

/-- C8: for a buffer that decodes to a `W×H` image, `lsb_capacity_bytes`
returns `(W*H*3) // 8`; for a non-decodable buffer it returns `0`.  It is a
total function of its arguments alone (no side effects in the model). -/
theorem capacity_exactness (decode : List Nat → Option Img) (carrier : List Nat) :
    (∀ img, decode carrier = some img →
      lsb_capacity_bytes decode carrier = img.w * img.h * 3 / 8) ∧
    (decode carrier = none → lsb_capacity_bytes decode carrier = 0) := by
  constructor
  · intro img h
    simp [lsb_capacity_bytes, h]
  · intro h
    simp [lsb_capacity_bytes, h]

/-- A stub decoder for the capacity witness: decodes the buffer `[1]` to a
4×3 image and nothing else. -/
def decodeStub : List Nat → Option Img :=
  fun l => if l = [1] then some ⟨4, 3, List.replicate 36 0⟩ else none

theorem capacity_exactness_witness :
    (decodeStub [1] = some ⟨4, 3, List.replicate 36 0⟩ ∧ decodeStub [2] = none) ∧
    lsb_capacity_bytes decodeStub [1] = 4 * 3 * 3 / 8 ∧
    lsb_capacity_bytes decodeStub [2] = 0 :=
  ⟨⟨by decide, by decide⟩,
    (capacity_exactness decodeStub [1]).1 ⟨4, 3, List.replicate 36 0⟩ (by decide),
    (capacity_exactness decodeStub [2]).2 (by decide)⟩


/-- C9: after a successful embed, the LSB of the channel byte at position
`indices[i]` equals bit `i` of the frame (MSB-first within each byte,
i.e. bit `7 - i % 8` of byte `i / 8`), the other bits of the written bytes
are unchanged, and every byte at a position outside the written indices is
unchanged. -/
theorem embed_frame_effect (env : PyEnv) (I : Img) (F : List Nat) (pwd : String) (stego : Img)
    (hbytes : ∀ b ∈ I.data, b < 256)
    (hok : embed_lsb env I F pwd = Except.ok stego) :
    stego.w = I.w ∧ stego.h = I.h ∧ stego.data.length = I.data.length ∧
    (∀ i, i < 8 * F.length →
      Nat.land (stego.data.getD ((embedIndices env I.data.length pwd).getD i 0) 0) 1 =
        F.getD (i / 8) 0 / 2 ^ (7 - i % 8) % 2 ∧
      stego.data.getD ((embedIndices env I.data.length pwd).getD i 0) 0 / 2 =
        I.data.getD ((embedIndices env I.data.length pwd).getD i 0) 0 / 2) ∧
    (∀ p, p ∉ (embedIndices env I.data.length pwd).take (8 * F.length) →
      stego.data.getD p 0 = I.data.getD p 0) := by
  have hblen : (_to_bitstring F).length = 8 * F.length := _to_bitstring_length F
  simp only [embed_lsb] at hok
  by_cases hcap : (_to_bitstring F).length > I.data.length
  · rw [if_pos hcap] at hok
    cases hok
  · rw [if_neg hcap] at hok
    injection hok with hok
    subst hok
    have hnodup := embedIndices_nodup env I.data.length pwd
    have hbound := embedIndices_mem_lt env I.data.length pwd
    have hidxlen := embedIndices_length env I.data.length pwd
    refine ⟨rfl, rfl, writeBits_length _ _ _, ?_, ?_⟩
    · intro i hi
      have hwrite := writeBits_getD_written (_to_bitstring F)
        (embedIndices env I.data.length pwd) I.data hnodup hbound i
        (by omega) (by omega)
      have hv : I.data.getD ((embedIndices env I.data.length pwd).getD i 0) 0 < 256 := by
        rcases Nat.lt_or_ge ((embedIndices env I.data.length pwd).getD i 0)
            I.data.length with h | h
        · rw [List.getD_eq_getElem _ _ h]
          exact hbytes _ (List.getElem_mem h)
        · rw [List.getD_eq_default _ _ h]
          omega
      have hbit : (_to_bitstring F).getD i 0 < 2 := by
        rcases Nat.lt_or_ge i (_to_bitstring F).length with h | h
        · rw [List.getD_eq_getElem _ _ h]
          exact _to_bitstring_lt F _ (List.getElem_mem h)
        · omega
      have hpos := _to_bitstring_getD F i (by omega)
      constructor
      · rw [hwrite, lsb_write_eq _ hv _ hbit, land_one_eq, ← hpos]
        omega
      · rw [hwrite, lsb_write_eq _ hv _ hbit]
        omega
    · intro p hp
      have := writeBits_getD_of_not_mem (_to_bitstring F)
        (embedIndices env I.data.length pwd) I.data p (by rw [hblen]; exact hp)
      exact this

theorem embed_frame_effect_witness :
    ((∀ b ∈ (⟨2, 2, List.replicate 12 7⟩ : Img).data, b < 256) ∧
      embed_lsb pyEnvTriv ⟨2, 2, List.replicate 12 7⟩ [170] "" =
        Except.ok ⟨2, 2, [7, 6, 7, 6, 7, 6, 7, 6, 7, 7, 7, 7]⟩) ∧
    ((⟨2, 2, [7, 6, 7, 6, 7, 6, 7, 6, 7, 7, 7, 7]⟩ : Img).w =
        (⟨2, 2, List.replicate 12 7⟩ : Img).w ∧
      (⟨2, 2, [7, 6, 7, 6, 7, 6, 7, 6, 7, 7, 7, 7]⟩ : Img).h =
        (⟨2, 2, List.replicate 12 7⟩ : Img).h ∧
      (⟨2, 2, [7, 6, 7, 6, 7, 6, 7, 6, 7, 7, 7, 7]⟩ : Img).data.length =
        (⟨2, 2, List.replicate 12 7⟩ : Img).data.length ∧
      (∀ i, i < 8 * ([170] : List Nat).length →
        Nat.land ((⟨2, 2, [7, 6, 7, 6, 7, 6, 7, 6, 7, 7, 7, 7]⟩ : Img).data.getD
          ((embedIndices pyEnvTriv (⟨2, 2, List.replicate 12 7⟩ : Img).data.length "").getD
            i 0) 0) 1 =
          ([170] : List Nat).getD (i / 8) 0 / 2 ^ (7 - i % 8) % 2 ∧
        (⟨2, 2, [7, 6, 7, 6, 7, 6, 7, 6, 7, 7, 7, 7]⟩ : Img).data.getD
          ((embedIndices pyEnvTriv (⟨2, 2, List.replicate 12 7⟩ : Img).data.length "").getD
            i 0) 0 / 2 =
          (⟨2, 2, List.replicate 12 7⟩ : Img).data.getD
            ((embedIndices pyEnvTriv
              (⟨2, 2, List.replicate 12 7⟩ : Img).data.length "").getD i 0) 0 / 2) ∧
      (∀ p, p ∉ (embedIndices pyEnvTriv
          (⟨2, 2, List.replicate 12 7⟩ : Img).data.length "").take
            (8 * ([170] : List Nat).length) →
        (⟨2, 2, [7, 6, 7, 6, 7, 6, 7, 6, 7, 7, 7, 7]⟩ : Img).data.getD p 0 =
          (⟨2, 2, List.replicate 12 7⟩ : Img).data.getD p 0)) :=
  ⟨⟨by decide, by decide⟩,
    embed_frame_effect pyEnvTriv ⟨2, 2, List.replicate 12 7⟩ [170] ""
      ⟨2, 2, [7, 6, 7, 6, 7, 6, 7, 6, 7, 7, 7, 7]⟩ (by decide) (by decide)⟩


/-- A carrier engineered so that its first 104 LSBs in sequential order
already spell a valid frame header (`MARKER` + length 0): 5×7 RGB pixels,
105 channel bytes. -/
def lsbCexImg : Img := ⟨5, 7, _to_bitstring (MARKER ++ beEncode 0 LENGTH_LEN) ++ [0]⟩

/-- C5 (counterexample): wrong-password LSB extraction does not always raise
`MarkerNotFound`.  Embedding the empty frame under password `"a"` leaves the
engineered carrier unchanged, and extracting with the different password
`""` then returns the marker-matching byte string `MARKER + be64(0)` instead
of failing. -/
theorem extract_wrong_password_cex :
    ("" : String) ≠ "a" ∧
    embed_lsb pyEnvTriv lsbCexImg [] "a" = Except.ok lsbCexImg ∧
    extract_lsb pyEnvTriv lsbCexImg "" = Except.ok (MARKER ++ beEncode 0 LENGTH_LEN) := by
  refine ⟨by decide, ?_, by decide⟩
  simp only [embed_lsb]
  rw [if_neg (by decide)]
  rfl

/-- C5 (amended): LSB extraction fails with `MarkerNotFound` precisely when
the 13 header bytes reassembled from the LSBs under the supplied password's
index ordering do not begin with the marker.  Wrong-password extraction
therefore fails deterministically whenever the re-permuted header does not
coincidentally spell the marker, but an engineered (or unlucky) carrier can
instead yield a marker-matching byte string. -/
theorem extract_wrong_password_amended (env : PyEnv) (I : Img) (pwd : String)
    (hcap : (MARKER.length + LENGTH_LEN) * 8 ≤ I.data.length) :
    extract_lsb env I pwd = Except.error Err.markerNotFound ↔
      (lsbHeader I.data (extractIndices env I.data.length pwd)).take MARKER.length ≠
        MARKER := by
  have hidxlen : (extractIndices env I.data.length pwd).length = I.data.length := by
    rw [extractIndices_eq_embedIndices]
    exact embedIndices_length env _ pwd
  have h104 : (MARKER.length + LENGTH_LEN) * 8 = 104 := rfl
  simp only [extract_lsb]
  rw [if_neg (by rw [hidxlen]; omega)]
  by_cases hh : (lsbHeader I.data (extractIndices env I.data.length pwd)).take
      MARKER.length = MARKER
  · rw [if_pos hh]
    constructor
    · intro hcon
      exfalso
      by_cases hc2 : (MARKER.length + LENGTH_LEN +
          beDecode (((lsbHeader I.data (extractIndices env I.data.length pwd)).drop
            MARKER.length).take LENGTH_LEN)) * 8 >
          (extractIndices env I.data.length pwd).length
      · rw [if_pos hc2] at hcon
        cases hcon
      · rw [if_neg hc2] at hcon
        cases hcon
    · intro h
      exact absurd hh h
  · rw [if_neg hh]
    exact ⟨fun _ => hh, fun _ => rfl⟩

theorem extract_wrong_password_amended_witness :
    ((MARKER.length + LENGTH_LEN) * 8 ≤ (⟨5, 7, List.replicate 105 0⟩ : Img).data.length) ∧
    (extract_lsb pyEnvTriv ⟨5, 7, List.replicate 105 0⟩ "x" =
        Except.error Err.markerNotFound ↔
      (lsbHeader (⟨5, 7, List.replicate 105 0⟩ : Img).data
        (extractIndices pyEnvTriv (⟨5, 7, List.replicate 105 0⟩ : Img).data.length
          "x")).take MARKER.length ≠ MARKER) :=
  ⟨by decide,
    extract_wrong_password_amended pyEnvTriv ⟨5, 7, List.replicate 105 0⟩ "x" (by decide)⟩


/-! ## Cipher engine (`encrypt_payload` / `decrypt_payload`) -/

/-- The 4-byte envelope tag `b"ENCR"`. -/
def ENCR : List Nat := [69, 78, 67, 82]

/-- `SALT_LEN = 16`. -/
def SALT_LEN : Nat := 16

/-- `NONCE_LEN = 12`. -/
def NONCE_LEN : Nat := 12

/-- External cryptographic primitives, abstracted as parameters: `kdf`
models `derive_key` (PBKDF2-HMAC-SHA256, 200000 iterations, 32-byte key)
and `enc`/`dec` model `AESGCM(key).encrypt/decrypt(nonce, data, None)`,
`dec` returning `none` on `InvalidTag`.  Theorems about authentication are
conditional on the standard AEAD idealisation of these primitives, stated
as explicit hypotheses. -/
structure CryptoLib where
  kdf : String → List Nat → List Nat
  enc : List Nat → List Nat → List Nat → List Nat
  dec : List Nat → List Nat → List Nat → Option (List Nat)

/-- `encrypt_payload`: `b"ENCR" + salt + nonce + ct`; `salt` and `nonce` are
the fresh random bytes drawn from `secrets.token_bytes`, passed in
explicitly here. -/
def encrypt_payload (lib : CryptoLib) (salt nonce payload : List Nat)
    (password : String) : List Nat :=
  ENCR ++ salt ++ nonce ++ lib.enc (lib.kdf password salt) nonce payload

/-- `decrypt_payload`: check the `"ENCR"` header, parse salt/nonce/
ciphertext at fixed offsets, derive the key and decrypt; `InvalidTag`
becomes `AuthenticationFailure`. -/
def decrypt_payload (lib : CryptoLib) (enc_bytes : List Nat) (password : String) :
    Except Err (List Nat) :=
  if enc_bytes.take 4 = ENCR then
    match lib.dec (lib.kdf password ((enc_bytes.drop 4).take SALT_LEN))
        ((enc_bytes.drop (4 + SALT_LEN)).take NONCE_LEN)
        (enc_bytes.drop (4 + SALT_LEN + NONCE_LEN)) with
    | some p => Except.ok p
    | none => Except.error Err.authenticationFailure
  else
    Except.error Err.invalidFormat

/-- Flip bit `b` of byte `j` of a byte string. -/
def flipBit (l : List Nat) (j b : Nat) : List Nat :=
  l.set j ((l.getD j 0) ^^^ 2 ^ b)

theorem xor_two_pow_ne (v b : Nat) : v ^^^ 2 ^ b ≠ v := by
  intro h
  have h2 : v ^^^ (v ^^^ 2 ^ b) = v ^^^ v := by rw [h]
  rw [← Nat.xor_assoc, Nat.xor_self, Nat.zero_xor] at h2
  have hpos := Nat.pos_pow_of_pos b (show 0 < 2 by norm_num)
  omega

theorem set_ne_self (l : List Nat) (j v : Nat) (hj : j < l.length)
    (hv : v ≠ l.getD j 0) : l.set j v ≠ l := by
  intro h
  have h2 := congrArg (fun t : List Nat => t[j]?) h
  simp only [List.getElem?_set_self hj] at h2
  rw [List.getElem?_eq_getElem hj] at h2
  injection h2 with h2
  exact hv (by rw [h2, List.getD_eq_getElem _ _ hj])

/-- Evaluating `decrypt_payload` on a well-formed envelope parses out
exactly the salt, nonce and ciphertext that were concatenated. -/
theorem decrypt_parse (lib : CryptoLib) (salt nonce ct : List Nat) (pwd' : String)
    (hsalt : salt.length = SALT_LEN) (hnonce : nonce.length = NONCE_LEN) :
    decrypt_payload lib (ENCR ++ salt ++ nonce ++ ct) pwd' =
      match lib.dec (lib.kdf pwd' salt) nonce ct with
      | some p => Except.ok p
      | none => Except.error Err.authenticationFailure := by
  have h4 : (ENCR ++ salt ++ nonce ++ ct).take 4 = ENCR := by
    rw [show ENCR ++ salt ++ nonce ++ ct = ENCR ++ (salt ++ (nonce ++ ct)) by
      simp [List.append_assoc], List.take_left' (show ENCR.length = 4 from rfl)]
  have hdrop4 : (ENCR ++ salt ++ nonce ++ ct).drop 4 = salt ++ (nonce ++ ct) := by
    rw [show ENCR ++ salt ++ nonce ++ ct = ENCR ++ (salt ++ (nonce ++ ct)) by
      simp [List.append_assoc], List.drop_left' (show ENCR.length = 4 from rfl)]
  have hs : ((ENCR ++ salt ++ nonce ++ ct).drop 4).take SALT_LEN = salt := by
    rw [hdrop4, List.take_left' hsalt]
  have hn : ((ENCR ++ salt ++ nonce ++ ct).drop (4 + SALT_LEN)).take NONCE_LEN = nonce := by
    rw [show ENCR ++ salt ++ nonce ++ ct = (ENCR ++ salt) ++ (nonce ++ ct) by
      simp [List.append_assoc],
      List.drop_left' (show (ENCR ++ salt).length = 4 + SALT_LEN by simp [ENCR, hsalt]; omega),
      List.take_left' hnonce]
  have hc : (ENCR ++ salt ++ nonce ++ ct).drop (4 + SALT_LEN + NONCE_LEN) = ct := by
    rw [show ENCR ++ salt ++ nonce ++ ct = ((ENCR ++ salt) ++ nonce) ++ ct from rfl,
      List.drop_left' (show ((ENCR ++ salt) ++ nonce).length = 4 + SALT_LEN + NONCE_LEN by
        simp [ENCR, hsalt, hnonce]; omega)]
  simp only [decrypt_payload, h4, hs, hn, hc, if_pos]


theorem flipBit_env_header (salt nonce ct : List Nat) (j b : Nat) (hj : j < 4) :
    flipBit (ENCR ++ salt ++ nonce ++ ct) j b =
      ENCR.set j ((ENCR.getD j 0) ^^^ 2 ^ b) ++ salt ++ nonce ++ ct := by
  rw [flipBit]
  have hgd : (ENCR ++ salt ++ nonce ++ ct).getD j 0 = ENCR.getD j 0 := by
    rw [List.getD_append _ _ _ _ (by simp [ENCR]; omega),
      List.getD_append _ _ _ _ (by simp [ENCR]; omega),
      List.getD_append _ _ _ _ (by simp [ENCR]; omega)]
  rw [hgd, List.set_append_left _ _ (by simp [ENCR]; omega),
    List.set_append_left _ _ (by simp [ENCR]; omega),
    List.set_append_left _ _ (by simp [ENCR]; omega)]

theorem flipBit_env_salt (salt nonce ct : List Nat) (j b : Nat)
    (hj4 : 4 ≤ j) (hj : j < 4 + salt.length) :
    flipBit (ENCR ++ salt ++ nonce ++ ct) j b =
      ENCR ++ flipBit salt (j - 4) b ++ nonce ++ ct := by
  rw [flipBit, flipBit]
  have hgd : (ENCR ++ salt ++ nonce ++ ct).getD j 0 = salt.getD (j - 4) 0 := by
    rw [List.getD_append _ _ _ _ (by simp [ENCR]; omega),
      List.getD_append _ _ _ _ (by simp [ENCR]; omega),
      List.getD_append_right _ _ _ _ (by simp [ENCR]; omega),
      show ENCR.length = 4 from rfl]
  rw [hgd, List.set_append_left _ _ (by simp [ENCR]; omega),
    List.set_append_left _ _ (by simp [ENCR]; omega),
    List.set_append_right _ _ (by simp [ENCR]; omega),
    show ENCR.length = 4 from rfl]

theorem flipBit_env_nonce (salt nonce ct : List Nat) (j b : Nat)
    (hj4 : 4 + salt.length ≤ j) (hj : j < 4 + salt.length + nonce.length) :
    flipBit (ENCR ++ salt ++ nonce ++ ct) j b =
      ENCR ++ salt ++ flipBit nonce (j - (4 + salt.length)) b ++ ct := by
  rw [flipBit, flipBit]
  have hgd : (ENCR ++ salt ++ nonce ++ ct).getD j 0 =
      nonce.getD (j - (4 + salt.length)) 0 := by
    rw [List.getD_append _ _ _ _ (by simp [ENCR]; omega),
      List.getD_append_right _ _ _ _ (by simp [ENCR]; omega)]
    congr 1
    simp [ENCR]
    omega
  rw [hgd, List.set_append_left _ _ (by simp [ENCR]; omega),
    List.set_append_right _ _ (by simp [ENCR]; omega)]
  congr 3
  simp [ENCR]
  omega

theorem flipBit_env_ct (salt nonce ct : List Nat) (j b : Nat)
    (hj : 4 + salt.length + nonce.length ≤ j) :
    flipBit (ENCR ++ salt ++ nonce ++ ct) j b =
      ENCR ++ salt ++ nonce ++ flipBit ct (j - (4 + salt.length + nonce.length)) b := by
  rw [flipBit, flipBit]
  have hgd : (ENCR ++ salt ++ nonce ++ ct).getD j 0 =
      ct.getD (j - (4 + salt.length + nonce.length)) 0 := by
    rw [List.getD_append_right _ _ _ _ (by simp [ENCR]; omega)]
    congr 1
    simp [ENCR]
    omega
  rw [hgd, List.set_append_right _ _ (by simp [ENCR]; omega)]
  congr 2
  simp [ENCR]
  omega


/-- C3: encryption round trip and authentication, conditional on the
standard AEAD idealisation of AES-GCM and PBKDF2 (explicit hypotheses:
decryption inverts encryption; a key derived from any other
(password, salt) pair rejects; any other nonce of the right length rejects;
any single-bit flip of the ciphertext rejects).  Then
`decrypt_payload(encrypt_payload(P, pwd), pwd) = P`; decryption with any
other password raises `AuthenticationFailure`; and every single-bit flip
anywhere in the envelope (header, salt, nonce or ciphertext) makes
decryption fail with an error rather than return corrupted data. -/
theorem encrypt_decrypt_roundtrip (lib : CryptoLib) (P salt nonce : List Nat) (pwd : String)
    (hsalt : salt.length = SALT_LEN) (hnonce : nonce.length = NONCE_LEN)
    (hrt : lib.dec (lib.kdf pwd salt) nonce (lib.enc (lib.kdf pwd salt) nonce P) = some P)
    (hwrongkey : ∀ (pwd' : String) (salt' : List Nat), ¬(pwd' = pwd ∧ salt' = salt) →
      lib.dec (lib.kdf pwd' salt') nonce (lib.enc (lib.kdf pwd salt) nonce P) = none)
    (hwrongnonce : ∀ jn, jn < NONCE_LEN → ∀ b', b' < 8 →
      lib.dec (lib.kdf pwd salt) (flipBit nonce jn b')
        (lib.enc (lib.kdf pwd salt) nonce P) = none)
    (hflip : ∀ j, j < (lib.enc (lib.kdf pwd salt) nonce P).length → ∀ b, b < 8 →
      lib.dec (lib.kdf pwd salt) nonce
        (flipBit (lib.enc (lib.kdf pwd salt) nonce P) j b) = none) :
    decrypt_payload lib (encrypt_payload lib salt nonce P pwd) pwd = Except.ok P ∧
    (∀ pwd', pwd' ≠ pwd →
      decrypt_payload lib (encrypt_payload lib salt nonce P pwd) pwd' =
        Except.error Err.authenticationFailure) ∧
    (∀ j, j < (encrypt_payload lib salt nonce P pwd).length → ∀ b, b < 8 →
      ∃ e : Err, decrypt_payload lib
        (flipBit (encrypt_payload lib salt nonce P pwd) j b) pwd = Except.error e) := by
  refine ⟨?_, ?_, ?_⟩
  · rw [show encrypt_payload lib salt nonce P pwd =
      ENCR ++ salt ++ nonce ++ lib.enc (lib.kdf pwd salt) nonce P from rfl,
      decrypt_parse lib salt nonce _ pwd hsalt hnonce, hrt]
  · intro pwd' hp
    rw [show encrypt_payload lib salt nonce P pwd =
      ENCR ++ salt ++ nonce ++ lib.enc (lib.kdf pwd salt) nonce P from rfl,
      decrypt_parse lib salt nonce _ pwd' hsalt hnonce,
      hwrongkey pwd' salt (by rintro ⟨h1, -⟩; exact hp h1)]
  · intro j hj b hb
    have hlenv : (encrypt_payload lib salt nonce P pwd).length =
        4 + SALT_LEN + NONCE_LEN + (lib.enc (lib.kdf pwd salt) nonce P).length := by
      simp [encrypt_payload, ENCR, hsalt, hnonce]
      omega
    rw [show encrypt_payload lib salt nonce P pwd =
      ENCR ++ salt ++ nonce ++ lib.enc (lib.kdf pwd salt) nonce P from rfl] at hj ⊢
    rcases Nat.lt_or_ge j 4 with h0 | h0
    · -- header flip: the tag check fails
      refine ⟨Err.invalidFormat, ?_⟩
      rw [flipBit_env_header salt nonce _ j b h0]
      have hne : ENCR.set j ((ENCR.getD j 0) ^^^ 2 ^ b) ≠ ENCR :=
        set_ne_self ENCR j _ (by simp [ENCR]; omega) (xor_two_pow_ne _ _)
      have htk : (ENCR.set j ((ENCR.getD j 0) ^^^ 2 ^ b) ++ salt ++ nonce ++
          lib.enc (lib.kdf pwd salt) nonce P).take 4 =
          ENCR.set j ((ENCR.getD j 0) ^^^ 2 ^ b) := by
        rw [show ENCR.set j ((ENCR.getD j 0) ^^^ 2 ^ b) ++ salt ++ nonce ++
            lib.enc (lib.kdf pwd salt) nonce P =
          ENCR.set j ((ENCR.getD j 0) ^^^ 2 ^ b) ++ (salt ++ (nonce ++
            lib.enc (lib.kdf pwd salt) nonce P)) by simp [List.append_assoc],
          List.take_left' (by simp [ENCR])]
      simp only [decrypt_payload, htk]
      rw [if_neg hne]
    · rcases Nat.lt_or_ge j (4 + SALT_LEN) with h1 | h1
      · -- salt flip: the derived key changes, authentication fails
        refine ⟨Err.authenticationFailure, ?_⟩
        rw [flipBit_env_salt salt nonce _ j b h0 (by omega),
          decrypt_parse lib _ nonce _ pwd (by rw [flipBit, List.length_set, hsalt]) hnonce,
          hwrongkey pwd (flipBit salt (j - 4) b) ?_]
        rintro ⟨-, h2⟩
        exact set_ne_self salt (j - 4) _ (by omega)
          (xor_two_pow_ne _ _) h2
      · rcases Nat.lt_or_ge j (4 + SALT_LEN + NONCE_LEN) with h2 | h2
        · -- nonce flip: authentication fails
          refine ⟨Err.authenticationFailure, ?_⟩
          rw [flipBit_env_nonce salt nonce _ j b (by omega) (by omega),
            decrypt_parse lib salt _ _ pwd hsalt
              (by rw [flipBit, List.length_set, hnonce]),
            hwrongnonce (j - (4 + salt.length)) (by omega) b hb]
        · -- ciphertext flip: AEAD integrity fails
          refine ⟨Err.authenticationFailure, ?_⟩
          rw [flipBit_env_ct salt nonce _ j b (by omega),
            decrypt_parse lib salt nonce _ pwd hsalt hnonce,
            hflip (j - (4 + salt.length + nonce.length))
              (by rw [show (ENCR ++ salt ++ nonce ++
                lib.enc (lib.kdf pwd salt) nonce P) =
                encrypt_payload lib salt nonce P pwd from rfl] at hj
                  rw [hlenv] at hj
                  omega) b hb]


/-- Byte-doubling used by the witness AEAD below. -/
def dupBytes : List Nat → List Nat
  | [] => []
  | x :: xs => x :: x :: dupBytes xs

/-- Inverse of `dupBytes` on doubled lists. -/
def undupBytes : List Nat → List Nat
  | x :: _ :: xs => x :: undupBytes xs
  | _ => []

/-- Whether a list is a byte-doubled list. -/
def isDupBytes : List Nat → Bool
  | [] => true
  | x :: y :: xs => x == y && isDupBytes xs
  | _ => false

/-- A toy KDF mapping one distinguished (password, salt) pair to the
all-zero key and everything else to the all-one key; it witnesses the
satisfiability of the key-separation hypotheses. -/
def toyKdf (pwd : String) (salt : List Nat) : List Nat :=
  if pwd = "a" ∧ salt = List.replicate 16 0 then List.replicate 32 0
  else List.replicate 32 1

/-- A toy AEAD encryption: double every payload byte and append key and
nonce.  Doubling gives the valid-ciphertext set Hamming distance ≥ 2, so
every single-bit flip is detected. -/
def toyEnc (key nonce p : List Nat) : List Nat := dupBytes p ++ key ++ nonce

/-- The matching toy AEAD decryption: check the key/nonce trailer and the
doubling structure, then un-double. -/
def toyDec (key nonce c : List Nat) : Option (List Nat) :=
  if key.length + nonce.length ≤ c.length ∧
      c.drop (c.length - (key.length + nonce.length)) = key ++ nonce ∧
      isDupBytes (c.take (c.length - (key.length + nonce.length))) = true then
    some (undupBytes (c.take (c.length - (key.length + nonce.length))))
  else none

/-- The toy cryptographic library used to witness the satisfiability of the
AEAD idealisation hypotheses. -/
def toyLib : CryptoLib := ⟨toyKdf, toyEnc, toyDec⟩

theorem encrypt_decrypt_roundtrip_witness :
    ((List.replicate 16 0).length = SALT_LEN ∧
      (List.replicate 12 2).length = NONCE_LEN ∧
      toyLib.dec (toyLib.kdf "a" (List.replicate 16 0)) (List.replicate 12 2)
        (toyLib.enc (toyLib.kdf "a" (List.replicate 16 0)) (List.replicate 12 2) [3, 7]) =
        some [3, 7]) ∧
    decrypt_payload toyLib
      (encrypt_payload toyLib (List.replicate 16 0) (List.replicate 12 2) [3, 7] "a") "a" =
      Except.ok [3, 7] ∧
    (∀ pwd', pwd' ≠ "a" →
      decrypt_payload toyLib
        (encrypt_payload toyLib (List.replicate 16 0) (List.replicate 12 2) [3, 7] "a")
        pwd' = Except.error Err.authenticationFailure) ∧
    (∀ j, j < (encrypt_payload toyLib (List.replicate 16 0) (List.replicate 12 2)
        [3, 7] "a").length → ∀ b, b < 8 →
      ∃ e : Err, decrypt_payload toyLib
        (flipBit (encrypt_payload toyLib (List.replicate 16 0) (List.replicate 12 2)
          [3, 7] "a") j b) "a" = Except.error e) := by
  have hwrongkey : ∀ (pwd' : String) (salt' : List Nat),
      ¬(pwd' = "a" ∧ salt' = List.replicate 16 0) →
      toyLib.dec (toyLib.kdf pwd' salt') (List.replicate 12 2)
        (toyLib.enc (toyLib.kdf "a" (List.replicate 16 0)) (List.replicate 12 2) [3, 7]) =
        none := by
    intro pwd' salt' h
    have hk : toyLib.kdf pwd' salt' = List.replicate 32 1 := by
      show toyKdf pwd' salt' = List.replicate 32 1
      rw [toyKdf, if_neg h]
    rw [hk]
    decide
  have h := encrypt_decrypt_roundtrip toyLib [3, 7] (List.replicate 16 0)
    (List.replicate 12 2) "a" (by decide) (by decide) (by decide) hwrongkey
    (by decide) (by decide)
  exact ⟨⟨by decide, by decide, by decide⟩, h.1, h.2.1, h.2.2⟩

